import Mathlib

/-!
Verification of the turn/round state machine of the simple-cadaver
application (`src/app.py`), a turn-based collaborative storytelling game.

The embedding follows the source:
* `Game` mirrors the `Game` database model (app.py:164-173): integer
  columns are Python ints, embedded as `Int`.
* `Contribution` mirrors the `Contribution` model (app.py:175-181); its
  autoincrement primary key `id` is the creation sequence.
* `advanceGame` is the state update performed by the POST branch of the
  `/game` route (app.py:229-238).
* `submitContribution` is the whole POST branch: append one contribution
  row, then update the game state (app.py:217-240).
* `getView` is the GET rendering path of `/game` (app.py:245-256).
* `listContributions` is the `/result` query ordered by
  `(round_number, player_number)` (app.py:264-265).
* `startGame` is the POST branch of `/` (app.py:193-206).
* `upload_image` is the `/upload_image/<game_code>` route (app.py:273-293);
  the helper `allowed_file` it calls is not defined in the source file and
  is modelled from the spec.
-/

namespace SimpleCadaver

/-- The `Game` database model (app.py:164-173).  `code` is the lookup key,
`imageUrl` the optional stored illustration reference. -/
structure Game where
  code : String
  currentPlayer : Int
  maxPlayers : Int
  round : Int
  isComplete : Bool
  imageUrl : Option String
deriving Repr, DecidableEq

/-- A freshly created game (app.py:198-201 together with the column
defaults at app.py:168-173): `current_player=1`, `round=1`,
`is_complete=False`, no image. -/
def initGame (code : String) (maxPlayers : Int) : Game :=
  { code := code
    currentPlayer := 1
    maxPlayers := maxPlayers
    round := 1
    isComplete := false
    imageUrl := none }

/-- The game-state update of the POST branch of `/game` (app.py:229-238):
wraparound increment of `current_player`/`round`, then set `is_complete`
when `round > 3`.  The source performs this unconditionally: there is no
completeness guard before it. -/
def advanceGame (g : Game) : Game :=
  let g1 :=
    if g.currentPlayer < g.maxPlayers then
      { g with currentPlayer := g.currentPlayer + 1 }
    else
      { g with currentPlayer := 1, round := g.round + 1 }
  if g1.round > 3 then { g1 with isComplete := true } else g1

/-- The data-model invariant of §3 of the spec: player within range,
round at least 1, completion flag equivalent to `round > 3`. -/
def Inv (g : Game) : Prop :=
  1 ≤ g.currentPlayer ∧ g.currentPlayer ≤ g.maxPlayers ∧ 1 ≤ g.round ∧
    (g.isComplete = true ↔ 3 < g.round)

/-- C1: from a non-complete state with `1 ≤ currentPlayer ≤ maxPlayers`,
one advance follows the wraparound rule: below `maxPlayers` the player is
incremented and the round unchanged, otherwise the player resets to 1 and
the round is incremented. -/
theorem advance_wraparound (g : Game) (hc : g.isComplete = false)
    (h1 : 1 ≤ g.currentPlayer) (h2 : g.currentPlayer ≤ g.maxPlayers) :
    (g.currentPlayer < g.maxPlayers →
      (advanceGame g).currentPlayer = g.currentPlayer + 1 ∧
      (advanceGame g).round = g.round) ∧
    (¬ g.currentPlayer < g.maxPlayers →
      (advanceGame g).currentPlayer = 1 ∧
      (advanceGame g).round = g.round + 1) := by
  unfold advanceGame
  constructor <;> intro hlt <;> simp only [hlt, if_pos, if_neg, not_false_iff] <;>
    split <;> simp [hlt]

/-- Witness for `advance_wraparound` at two concrete states, one per
branch of the wraparound rule. -/
theorem advance_wraparound_witness :
    ((advanceGame (initGame "AB12CD34" 3)).currentPlayer = 2 ∧
      (advanceGame (initGame "AB12CD34" 3)).round = 1) ∧
    ((advanceGame { initGame "AB12CD34" 3 with currentPlayer := 3 }).currentPlayer = 1 ∧
      (advanceGame { initGame "AB12CD34" 3 with currentPlayer := 3 }).round = 2) := by
  constructor
  · exact (advance_wraparound (initGame "AB12CD34" 3) (by decide) (by decide)
      (by decide)).1 (by decide)
  · exact (advance_wraparound { initGame "AB12CD34" 3 with currentPlayer := 3 }
      (by decide) (by decide) (by decide)).2 (by decide)

/-- C3: an advance from a state satisfying the §3 invariants, with the
game not yet complete, yields a state satisfying the invariants again;
moreover a complete state stays complete. -/
theorem advance_preserves_Inv (g : Game) (hinv : Inv g)
    (hc : g.isComplete = false) :
    Inv (advanceGame g) ∧
      ∀ g2 : Game, g2.isComplete = true → (advanceGame g2).isComplete = true := by
  refine ⟨?_, ?_⟩
  · obtain ⟨hcp1, hcp2, hr, hiff⟩ := hinv
    have hr3 : g.round ≤ 3 := by
      by_contra hgt
      exact absurd (hiff.mpr (by omega)) (by simp [hc])
    unfold advanceGame Inv
    dsimp only
    split <;> split <;> simp_all <;> omega
  · intro g2 h2
    unfold advanceGame
    dsimp only
    split <;> split <;> simp_all

/-- Witness for `advance_preserves_Inv` at a concrete mid-game state. -/
theorem advance_preserves_Inv_witness :
    Inv (advanceGame { initGame "AB12CD34" 3 with currentPlayer := 2, round := 2 }) ∧
      ∀ g2 : Game, g2.isComplete = true → (advanceGame g2).isComplete = true := by
  exact advance_preserves_Inv
    { initGame "AB12CD34" 3 with currentPlayer := 2, round := 2 }
    (by unfold Inv initGame; norm_num) rfl

/-- Branch form of `advanceGame` when the player is below `maxPlayers`. -/
theorem advance_of_lt (g : Game) (h : g.currentPlayer < g.maxPlayers) :
    advanceGame g =
      if g.round > 3 then
        { g with currentPlayer := g.currentPlayer + 1, isComplete := true }
      else { g with currentPlayer := g.currentPlayer + 1 } := by
  unfold advanceGame
  dsimp only
  rw [if_pos h]

/-- Branch form of `advanceGame` when the player has reached
`maxPlayers`. -/
theorem advance_of_ge (g : Game) (h : ¬ g.currentPlayer < g.maxPlayers) :
    advanceGame g =
      if g.round + 1 > 3 then
        { g with currentPlayer := 1, round := g.round + 1, isComplete := true }
      else { g with currentPlayer := 1, round := g.round + 1 } := by
  unfold advanceGame
  dsimp only
  rw [if_neg h]

/-- Successor of the remainder, below the modulus: `(k+1) % m` continues
counting. -/
theorem mod_succ_of_lt {k m : Nat} (h : k % m + 1 < m) :
    (k + 1) % m = k % m + 1 := by
  have h1 : 1 % m = 1 := Nat.mod_eq_of_lt (by omega)
  rw [Nat.add_mod, h1]
  exact Nat.mod_eq_of_lt h

/-- Successor of the remainder, below the modulus: the quotient is
unchanged. -/
theorem div_succ_of_lt {k m : Nat} (h : k % m + 1 < m) :
    (k + 1) / m = k / m := by
  rw [Nat.succ_div, if_neg, Nat.add_zero]
  intro hdvd
  have h0 : (k + 1) % m = 0 := Nat.dvd_iff_mod_eq_zero.mp hdvd
  rw [mod_succ_of_lt h] at h0
  omega

/-- Successor of the remainder hitting the modulus: `(k+1) % m` wraps
to 0. -/
theorem mod_succ_of_eq {k m : Nat} (h : k % m + 1 = m) : (k + 1) % m = 0 := by
  have hk : k + 1 = m * (k / m + 1) := by
    rw [Nat.mul_succ]
    have := Nat.div_add_mod k m
    omega
  rw [hk, Nat.mul_mod_right]

/-- Successor of the remainder hitting the modulus: the quotient is
incremented. -/
theorem div_succ_of_eq {k m : Nat} (h : k % m + 1 = m) :
    (k + 1) / m = k / m + 1 := by
  have hk : k + 1 = m * (k / m + 1) := by
    rw [Nat.mul_succ]
    have := Nat.div_add_mod k m
    omega
  rw [hk, Nat.mul_div_cancel_left _ (show 0 < m by omega)]

/-- Closed form for `k` advances from a fresh game with `m ≥ 1` players:
the player is `k % m + 1`, the round is `k / m + 1`, `maxPlayers` is
untouched, and the game is complete exactly when `k ≥ 3 * m`. -/
theorem iterate_advance_char (code : String) (m : Nat) (hm : 1 ≤ m) (k : Nat) :
    (advanceGame^[k] (initGame code m)).currentPlayer = ((k % m : Nat) : Int) + 1 ∧
    (advanceGame^[k] (initGame code m)).round = ((k / m : Nat) : Int) + 1 ∧
    (advanceGame^[k] (initGame code m)).maxPlayers = (m : Int) ∧
    ((advanceGame^[k] (initGame code m)).isComplete = true ↔ 3 * m ≤ k) := by
  induction k with
  | zero =>
    simp [initGame]
    omega
  | succ k ih =>
    obtain ⟨hcp, hr, hmp, hcomp⟩ := ih
    rw [Function.iterate_succ_apply']
    have hmod : k % m < m := Nat.mod_lt _ (by omega)
    have hmk : m * (k / m) + k % m = k := Nat.div_add_mod k m
    by_cases hlt : k % m + 1 < m
    · -- mid-round: player increments, round and quotient unchanged
      have h1 : (advanceGame^[k] (initGame code m)).currentPlayer <
          (advanceGame^[k] (initGame code m)).maxPlayers := by
        rw [hcp, hmp]
        exact_mod_cast hlt
      rw [advance_of_lt _ h1, hr]
      have hmod' := mod_succ_of_lt hlt
      have hdiv' := div_succ_of_lt hlt
      split
      · rename_i hgt
        have hq3 : 3 ≤ k / m := by
          have : (3 : Int) < (k / m : Nat) + 1 := hgt
          exact_mod_cast by omega
        have hmul : 3 * m ≤ m * (k / m) := by
          calc 3 * m = m * 3 := by ring
          _ ≤ m * (k / m) := Nat.mul_le_mul_left m hq3
        refine ⟨?_, ?_, hmp, ?_⟩
        · show (advanceGame^[k] (initGame code m)).currentPlayer + 1 = _
          rw [hcp, hmod']
          push_cast
          ring
        · show ((k / m : Nat) : Int) + 1 = _
          rw [hdiv']
        · show true = true ↔ 3 * m ≤ k + 1
          simp only [true_iff]
          omega
      · rename_i hle
        have hq2 : k / m ≤ 2 := by
          have : ¬ (3 : Int) < (k / m : Nat) + 1 := hle
          by_contra hq'
          exact this (by exact_mod_cast by omega)
        have hklt : k + 1 < 3 * m := by
          have : m * (k / m) ≤ m * 2 := Nat.mul_le_mul_left m hq2
          omega
        refine ⟨?_, ?_, hmp, ?_⟩
        · show (advanceGame^[k] (initGame code m)).currentPlayer + 1 = _
          rw [hcp, hmod']
          push_cast
          ring
        · show ((k / m : Nat) : Int) + 1 = _
          rw [hdiv']
        · show (advanceGame^[k] (initGame code m)).isComplete = true ↔ 3 * m ≤ k + 1
          rw [hcomp]
          omega
    · -- end of round: player wraps to 1, round increments
      have heq : k % m + 1 = m := by omega
      have h1 : ¬ (advanceGame^[k] (initGame code m)).currentPlayer <
          (advanceGame^[k] (initGame code m)).maxPlayers := by
        rw [hcp, hmp]
        intro hcon
        have : k % m + 1 < m := by exact_mod_cast hcon
        omega
      rw [advance_of_ge _ h1, hr]
      have hmod' := mod_succ_of_eq heq
      have hdiv' := div_succ_of_eq heq
      split
      · rename_i hgt
        have hq2 : 2 ≤ k / m := by
          have : (3 : Int) < (k / m : Nat) + 1 + 1 := hgt
          exact_mod_cast by omega
        have hmul : 2 * m ≤ m * (k / m) := by
          calc 2 * m = m * 2 := by ring
          _ ≤ m * (k / m) := Nat.mul_le_mul_left m hq2
        refine ⟨?_, ?_, hmp, ?_⟩
        · show (1 : Int) = _
          rw [hmod']
          norm_num
        · show ((k / m : Nat) : Int) + 1 + 1 = _
          rw [hdiv']
          push_cast
          ring
        · show true = true ↔ 3 * m ≤ k + 1
          simp only [true_iff]
          omega
      · rename_i hle
        have hq1 : k / m ≤ 1 := by
          have : ¬ (3 : Int) < (k / m : Nat) + 1 + 1 := hle
          by_contra hq'
          exact this (by exact_mod_cast by omega)
        have hkle : k + 1 ≤ 2 * m := by
          have : m * (k / m) ≤ m * 1 := Nat.mul_le_mul_left m hq1
          omega
        refine ⟨?_, ?_, hmp, ?_⟩
        · show (1 : Int) = _
          rw [hmod']
          norm_num
        · show ((k / m : Nat) : Int) + 1 + 1 = _
          rw [hdiv']
          push_cast
          ring
        · show (advanceGame^[k] (initGame code m)).isComplete = true ↔ 3 * m ≤ k + 1
          rw [hcomp]
          omega

/-- C4: from a fresh game with `m ≥ 1` players, the game is complete with
`round = 4` after exactly `3 * m` advances, and not complete after any
smaller number of advances. -/
theorem completes_after_maxPlayers_mul_three (code : String) (m : Nat) (hm : 1 ≤ m) :
    (advanceGame^[3 * m] (initGame code m)).round = 4 ∧
    (advanceGame^[3 * m] (initGame code m)).isComplete = true ∧
    ∀ k, k < 3 * m → (advanceGame^[k] (initGame code m)).isComplete = false := by
  obtain ⟨-, hr, -, hcomp⟩ := iterate_advance_char code m hm (3 * m)
  refine ⟨?_, hcomp.mpr le_rfl, ?_⟩
  · rw [hr]
    have h3 : 3 * m / m = 3 := by
      rw [Nat.mul_comm]
      exact Nat.mul_div_cancel_left _ (by omega)
    rw [h3]
    norm_num
  · intro k hk
    obtain ⟨-, -, -, hcompk⟩ := iterate_advance_char code m hm k
    cases hcb : (advanceGame^[k] (initGame code m)).isComplete
    · rfl
    · exact absurd (hcompk.mp hcb) (by omega)

/-- Witness for `completes_after_maxPlayers_mul_three` with 3 players:
complete after the 9th advance, not complete after the 5th. -/
theorem completes_after_maxPlayers_mul_three_witness :
    (advanceGame^[9] (initGame "AB12CD34" 3)).round = 4 ∧
    (advanceGame^[9] (initGame "AB12CD34" 3)).isComplete = true ∧
    (advanceGame^[5] (initGame "AB12CD34" 3)).isComplete = false := by
  obtain ⟨h1, h2, h3⟩ :=
    completes_after_maxPlayers_mul_three "AB12CD34" 3 (by norm_num)
  exact ⟨h1, h2, h3 5 (by norm_num)⟩

/-- C5: with a single player, every advance from a non-complete state
keeps `currentPlayer` at 1 and increments the round, and the fresh
single-player game is complete after its third submission, with
`round = 4`. -/
theorem single_player_loop (c : String) (g : Game) (hmp : g.maxPlayers = 1)
    (hcp : g.currentPlayer = 1) (hc : g.isComplete = false) :
    ((advanceGame g).currentPlayer = 1 ∧ (advanceGame g).round = g.round + 1) ∧
    ((advanceGame^[3] (initGame c 1)).isComplete = true ∧
      (advanceGame^[3] (initGame c 1)).round = 4 ∧
      (advanceGame^[3] (initGame c 1)).currentPlayer = 1) := by
  constructor
  · have h1 : ¬ g.currentPlayer < g.maxPlayers := by
      rw [hmp, hcp]
      omega
    rw [advance_of_ge g h1]
    split <;> simp
  · obtain ⟨hcp3, hr3, -, hcomp3⟩ := iterate_advance_char c 1 le_rfl 3
    norm_num at hcp3 hr3 hcomp3
    exact ⟨hcomp3, hr3, hcp3⟩

/-- Witness for `single_player_loop` at a fresh single-player game. -/
theorem single_player_loop_witness :
    ((advanceGame (initGame "AB12CD34" 1)).currentPlayer = 1 ∧
      (advanceGame (initGame "AB12CD34" 1)).round = (initGame "AB12CD34" 1).round + 1) ∧
    ((advanceGame^[3] (initGame "AB12CD34" 1)).isComplete = true ∧
      (advanceGame^[3] (initGame "AB12CD34" 1)).round = 4 ∧
      (advanceGame^[3] (initGame "AB12CD34" 1)).currentPlayer = 1) := by
  exact single_player_loop "AB12CD34" (initGame "AB12CD34" 1) rfl rfl rfl

/-- The `Contribution` database model (app.py:175-181).  `id` is the
autoincrement primary key, i.e. the creation sequence. -/
structure Contribution where
  id : Nat
  playerNumber : Int
  roundNumber : Int
  text : String
deriving Repr, DecidableEq

/-- The persisted data for one game: its `Game` row and its
`Contribution` rows in creation order, plus the next primary key. -/
structure Store where
  game : Game
  contribs : List Contribution
  nextId : Nat
deriving Repr, DecidableEq

/-- A freshly created game with an empty contribution log. -/
def initStore (code : String) (maxPlayers : Int) : Store :=
  { game := initGame code maxPlayers, contribs := [], nextId := 1 }

/-- The POST branch of `/game` (app.py:217-240): insert one contribution
row recording the current player and round, then update the game state.
The source has no completeness check before this. -/
def submitContribution (st : Store) (text : String) : Store :=
  { game := advanceGame st.game
    contribs := st.contribs ++
      [{ id := st.nextId
         playerNumber := st.game.currentPlayer
         roundNumber := st.game.round
         text := text }]
    nextId := st.nextId + 1 }

/-- A sequence of submissions in play order, starting from a fresh
game. -/
def runGame (code : String) (maxPlayers : Int) (texts : List String) : Store :=
  texts.foldl submitContribution (initStore code maxPlayers)

/-- The display order of the `/result` query (app.py:264-265): by
`(round_number, player_number)`. -/
def contribLe (a b : Contribution) : Prop :=
  a.roundNumber < b.roundNumber ∨
    (a.roundNumber = b.roundNumber ∧ a.playerNumber ≤ b.playerNumber)

instance : DecidableRel contribLe := fun a b => by
  unfold contribLe
  infer_instance

/-- Strict version of the display order. -/
def contribLt (a b : Contribution) : Prop :=
  a.roundNumber < b.roundNumber ∨
    (a.roundNumber = b.roundNumber ∧ a.playerNumber < b.playerNumber)

/-- The `/result` listing (app.py:264-265): all contributions of the
game ordered by `(round_number, player_number)`. -/
def listContributions (l : List Contribution) : List Contribution :=
  List.insertionSort contribLe l

/-- A contribution whose `(round, player)` key is strictly below the
position the game state is currently at. -/
def beforeState (c : Contribution) (g : Game) : Prop :=
  c.roundNumber < g.round ∨
    (c.roundNumber = g.round ∧ c.playerNumber < g.currentPlayer)

/-- Advancing moves the state key strictly up: any contribution at or
below the old position is strictly below the new one. -/
theorem beforeState_advance (c : Contribution) (g : Game)
    (h : c.roundNumber < g.round ∨
      (c.roundNumber = g.round ∧ c.playerNumber ≤ g.currentPlayer)) :
    beforeState c (advanceGame g) := by
  unfold beforeState
  by_cases h1 : g.currentPlayer < g.maxPlayers
  · rw [advance_of_lt g h1]
    split <;> dsimp only <;> omega
  · rw [advance_of_ge g h1]
    split <;> dsimp only <;> omega

/-- Invariant tying the contribution log to the game state: the log is
strictly increasing in the display key, and every logged contribution
sits strictly before the current state position. -/
def StoreInv (st : Store) : Prop :=
  st.contribs.Pairwise contribLt ∧ ∀ c ∈ st.contribs, beforeState c st.game

/-- One submission preserves the log/state invariant. -/
theorem submit_preserves_StoreInv (st : Store) (t : String)
    (h : StoreInv st) : StoreInv (submitContribution st t) := by
  obtain ⟨hp, hb⟩ := h
  unfold StoreInv submitContribution
  dsimp only
  constructor
  · rw [List.pairwise_append]
    refine ⟨hp, List.pairwise_singleton _ _, ?_⟩
    intro a ha b hb'
    rw [List.mem_singleton] at hb'
    subst hb'
    exact hb a ha
  · intro c hc
    rw [List.mem_append, List.mem_singleton] at hc
    rcases hc with hc | hc
    · refine beforeState_advance c st.game ?_
      rcases hb c hc with h1 | ⟨h1, h2⟩
      · exact Or.inl h1
      · exact Or.inr ⟨h1, le_of_lt h2⟩
    · subst hc
      exact beforeState_advance _ st.game (Or.inr ⟨rfl, le_refl _⟩)

/-- Any play run from a fresh game satisfies the log/state invariant. -/
theorem runGame_StoreInv (code : String) (maxPlayers : Int)
    (texts : List String) : StoreInv (runGame code maxPlayers texts) := by
  have hgen : ∀ (ts : List String) (st : Store), StoreInv st →
      StoreInv (ts.foldl submitContribution st) := by
    intro ts
    induction ts with
    | nil => intro st h; exact h
    | cons t ts ih =>
      intro st h
      exact ih _ (submit_preserves_StoreInv st t h)
  refine hgen texts _ ⟨List.Pairwise.nil, ?_⟩
  intro c hc
  cases hc

/-- The texts recorded by a run are the submitted texts, in order. -/
theorem foldl_submit_texts (texts : List String) (st : Store) :
    (texts.foldl submitContribution st).contribs.map (fun c => c.text) =
      st.contribs.map (fun c => c.text) ++ texts := by
  induction texts generalizing st with
  | nil => simp
  | cons t ts ih =>
    rw [List.foldl_cons, ih]
    simp [submitContribution]

/-- C8: listing the contributions of a play run via the `/result` query
returns exactly the log in play order, and the listed texts are exactly
the submitted texts in order — the append/list round-trip. -/
theorem contributions_round_trip (code : String) (maxPlayers : Int)
    (texts : List String) :
    listContributions (runGame code maxPlayers texts).contribs =
      (runGame code maxPlayers texts).contribs ∧
    (listContributions (runGame code maxPlayers texts).contribs).map
        (fun c => c.text) = texts := by
  have hsorted : (runGame code maxPlayers texts).contribs.Pairwise contribLe := by
    refine ((runGame_StoreInv code maxPlayers texts).1).imp ?_
    intro a b hab
    rcases hab with h1 | ⟨h1, h2⟩
    · exact Or.inl h1
    · exact Or.inr ⟨h1, le_of_lt h2⟩
  have heq : listContributions (runGame code maxPlayers texts).contribs =
      (runGame code maxPlayers texts).contribs :=
    List.Sorted.insertionSort_eq hsorted
  refine ⟨heq, ?_⟩
  rw [heq]
  simpa using foldl_submit_texts texts (initStore code maxPlayers)

/-- The ordering of the last-contribution query (app.py:246-247):
descending primary key. -/
def idDesc (a b : Contribution) : Prop := b.id ≤ a.id

instance : DecidableRel idDesc := fun a b => by
  unfold idDesc
  infer_instance

/-- The last-contribution query (app.py:246-247):
`order_by(Contribution.id.desc()).first()`. -/
def lastByIdDesc (l : List Contribution) : Option Contribution :=
  (List.insertionSort idDesc l).head?

/-- The data rendered by the GET branch of `/game` (app.py:249-256). -/
structure View where
  lastContributionText : String
  currentPlayer : Int
  maxPlayers : Int
  round : Int
  showInput : Bool
deriving Repr, DecidableEq

/-- The GET branch of `/game` (app.py:245-256): read-only — it queries
the last contribution and renders; the store is returned unchanged
because the source performs no write on this path. -/
def getView (st : Store) (showAll : Bool) : Store × View :=
  (st,
    { lastContributionText :=
        match lastByIdDesc st.contribs with
        | some c => c.text
        | none => ""
      currentPlayer := st.game.currentPlayer
      maxPlayers := st.game.maxPlayers
      round := st.game.round
      showInput := (st.game.currentPlayer == 1) || showAll })

/-- C9: any number of repeated views leaves the stored game state and
contribution log unchanged. -/
theorem getView_idempotent (st : Store) (showAll : Bool) (n : Nat) :
    (fun s => (getView s showAll).1)^[n] st = st :=
  Function.iterate_fixed rfl n

/-- Inserting an element below everything in the list (w.r.t. the
descending-id order) puts it at the end. -/
theorem orderedInsert_min_eq_append (a : Contribution) (l : List Contribution)
    (h : ∀ b ∈ l, ¬ idDesc a b) :
    List.orderedInsert idDesc a l = l ++ [a] := by
  induction l with
  | nil => rfl
  | cons c cs ih =>
    rw [List.orderedInsert, if_neg (h c (List.mem_cons_self c cs)),
      ih (fun b hb => h b (List.mem_cons_of_mem c hb))]
    rfl

/-- Sorting a list with strictly increasing ids by descending id
reverses it. -/
theorem insertionSort_idDesc_eq_reverse (l : List Contribution)
    (h : l.Pairwise (fun a b => a.id < b.id)) :
    List.insertionSort idDesc l = l.reverse := by
  induction l with
  | nil => rfl
  | cons a t ih =>
    rw [List.pairwise_cons] at h
    rw [List.insertionSort, ih h.2, orderedInsert_min_eq_append]
    · simp
    · intro b hb
      rw [List.mem_reverse] at hb
      have hab := h.1 b hb
      unfold idDesc
      omega

/-- C10: when the log's ids are strictly increasing (creation order),
the view's last-contribution text is the text of the most recently
created contribution — the last of the log — and the empty string on an
empty log, regardless of the round/player values stored in the rows. -/
theorem getView_last_text (st : Store) (showAll : Bool)
    (h : st.contribs.Pairwise (fun a b => a.id < b.id)) :
    (getView st showAll).2.lastContributionText =
      (match st.contribs.getLast? with
       | some c => c.text
       | none => "") := by
  unfold getView
  dsimp only
  unfold lastByIdDesc
  rw [insertionSort_idDesc_eq_reverse st.contribs h, List.head?_reverse]

/-- Witness for `getView_last_text`: two contributions where the newest
row has the smaller `(round, player)` key, yet its text is reported. -/
theorem getView_last_text_witness :
    (getView
        { game := initGame "AB12CD34" 3
          contribs := [{ id := 1, playerNumber := 2, roundNumber := 3, text := "a" },
                       { id := 2, playerNumber := 1, roundNumber := 1, text := "b" }]
          nextId := 3 } true).2.lastContributionText = "b" := by
  rw [getView_last_text _ true (by decide)]
  rfl

/-- C2 evidence: the source has no completeness guard on the POST branch
of `/game`, so submitting on a completed game (round 4) appends a new
contribution row for round 4 and advances the player — no failure
occurs and the state changes. -/
theorem submit_on_complete_appends :
    submitContribution
        { game := { code := "AB12CD34", currentPlayer := 1, maxPlayers := 3,
                    round := 4, isComplete := true, imageUrl := none }
          contribs := []
          nextId := 1 } "z" =
      { game := { code := "AB12CD34", currentPlayer := 2, maxPlayers := 3,
                  round := 4, isComplete := true, imageUrl := none }
        contribs := [{ id := 1, playerNumber := 1, roundNumber := 4, text := "z" }]
        nextId := 2 } := by
  rfl

/-- Outcome of the POST branch of `/`: either a created game, or the
uncaught `ValueError` raised by Python `int()` on a non-integer form
value. -/
inductive StartOutcome where
  | created (g : Game)
  | valueError
deriving Repr, DecidableEq

/-- The POST branch of `/` (app.py:193-206):
`int(request.form['player_count'])` either raises `ValueError` (a
non-integer form value, modelled as `none` — no game is created) or
yields an integer `n`, and the game is then created unconditionally with
`max_players = n`.  The source performs no positivity check. -/
def startGame (code : String) (parsed : Option Int) : StartOutcome :=
  match parsed with
  | none => .valueError
  | some n => .created (initGame code n)

/-- C7 counterexample: a player count of 0 — non-positive — does not
fail: a game with `maxPlayers = 0` is created. -/
theorem startGame_accepts_zero :
    startGame "AB12CD34" (some 0) = .created (initGame "AB12CD34" 0) ∧
    (initGame "AB12CD34" 0).maxPlayers = 0 ∧
    startGame "AB12CD34" (some 0) ≠ .valueError := by
  refine ⟨rfl, rfl, ?_⟩
  intro h
  cases h

/-- C7 amended: StartGame validates nothing beyond Python `int()`
coercion — a non-integer player count raises an uncaught `ValueError`
and creates no game, while any integer, zero and negatives included,
creates a fresh game with that `maxPlayers`. -/
theorem startGame_coercion_only (code : String) (n : Int) :
    startGame code (some n) = .created (initGame code n) ∧
    startGame code none = .valueError :=
  ⟨rfl, rfl⟩

/-- Lowercasing of one ASCII character, as Python `str.lower` does on
extensions. -/
def lowerChar (c : Char) : Char :=
  if 'A' ≤ c ∧ c ≤ 'Z' then Char.ofNat (c.toNat + 32) else c

/-- The characters after the last dot, or `none` when there is no
dot: `filename.rsplit('.', 1)[1]` guarded by `'.' in filename`. -/
def extAfterLastDot : List Char → Option (List Char)
  | [] => none
  | c :: cs =>
    match extAfterLastDot cs with
    | some e => some e
    | none => if c = '.' then some cs else none

/-- Modelled from the spec: the accepted image extensions of
`UploadImage` — `{png, jpg, jpeg, gif}` (§6). -/
def ALLOWED_EXTENSIONS : List (List Char) :=
  [['p', 'n', 'g'], ['j', 'p', 'g'], ['j', 'p', 'e', 'g'], ['g', 'i', 'f']]

/-- Modelled from the spec: `allowed_file` is called at app.py:286 but
defined nowhere in `src/app.py`.  Per the spec (§6) it accepts a
filename whose extension — the part after the last dot, lowercased — is
in `ALLOWED_EXTENSIONS`.  It receives only the filename, so it cannot
check a size. -/
def allowed_file (filename : String) : Bool :=
  match extAfterLastDot filename.data with
  | none => false
  | some e => ALLOWED_EXTENSIONS.contains (e.map lowerChar)

theorem allowed_file_empty : allowed_file "" = false := rfl

/-- An uploaded file as the route sees it: its client filename and its
size in bytes. -/
structure UploadedFile where
  filename : String
  size : Nat
deriving Repr, DecidableEq

/-- Every exit of the upload route is a redirect: back to the request
URL, or to the result page.  There is no error response. -/
inductive UploadRedirect where
  | back
  | result
deriving Repr, DecidableEq

/-- The `/upload_image/<code>` route once the game is found
(app.py:279-293): a missing `image` field or empty filename redirects
back; an allowed filename stores `"<code>_<filename>"` as the image
reference (the `secure_filename` sanitisation and the physical file save
are external collaborators); everything else falls through to the result
redirect with nothing stored.  No size check appears anywhere in the
source. -/
def upload_image (g : Game) (file : Option UploadedFile) : Game × UploadRedirect :=
  match file with
  | none => (g, .back)
  | some f =>
    if f.filename = "" then (g, .back)
    else if allowed_file f.filename then
      ({ g with imageUrl := some (g.code ++ "_" ++ f.filename) }, .result)
    else (g, .result)

/-- C6 counterexample: an allowed-extension file of 3MB — larger than
2MB — is stored anyway: the source checks no size, refuting the
"only if size ≤ 2MB" half of the claim. -/
theorem upload_oversize_stored :
    2 * 1024 * 1024 <
      ({ filename := "big.png", size := 3145728 } : UploadedFile).size ∧
    (upload_image (initGame "AB12CD34" 3)
        (some { filename := "big.png", size := 3145728 })).1.imageUrl =
      some "AB12CD34_big.png" := by
  constructor
  · norm_num
  · rfl

/-- C6 amended: for a found game, the upload stores an image reference
iff the filename's extension is allowed; the size plays no role, and
every other case is silently ignored — the handler only ever redirects
(back on a missing/empty file, to the result page otherwise) and
surfaces no error. -/
theorem upload_stores_iff_allowed_ext (g : Game) (f : UploadedFile) :
    (upload_image g (some f)).1 =
      (if allowed_file f.filename then
        { g with imageUrl := some (g.code ++ "_" ++ f.filename) }
      else g) ∧
    (upload_image g (some f)).2 =
      (if f.filename = "" then UploadRedirect.back else UploadRedirect.result) ∧
    (upload_image g none).1 = g := by
  refine ⟨?_, ?_, rfl⟩ <;> unfold upload_image <;> dsimp only <;>
    split_ifs with h1 h2 <;> try rfl
  all_goals rw [h1, allowed_file_empty] at h2
  all_goals cases h2

end SimpleCadaver
